import Mathlib

/-!
Verification of the nussl source-separation kernels: shallow embedding of the
STFT/iSTFT pair, the DUET estimator's mask and histogram steps, the 1-D and
2-D peak finders, the 2-D smoothing kernel, the audio-buffer arithmetic and
the REPET-SIM similarity matrix, with theorems settling the specification's
claims about them.

Numeric code that the sources run on IEEE floats is embedded over ℚ where the
operations are rational (peak finding, histograms, smoothing, buffer
arithmetic) and over ℝ/ℂ where they involve transcendental functions
(windows, DFT, square roots).
-/

namespace Nussl

/-- Decidable equality for `Except`, so that concrete runs of the fallible
embedded operations can be checked by `decide`. -/
instance {ε α : Type} [DecidableEq ε] [DecidableEq α] : DecidableEq (Except ε α) := fun a b =>
  match a, b with
  | Except.ok x, Except.ok y =>
    match decEq x y with
    | isTrue h => isTrue (h ▸ rfl)
    | isFalse h => isFalse fun hc => h (Except.ok.inj hc)
  | Except.error x, Except.error y =>
    match decEq x y with
    | isTrue h => isTrue (h ▸ rfl)
    | isFalse h => isFalse fun hc => h (Except.error.inj hc)
  | Except.ok _, Except.error _ => isFalse fun hc => Except.noConfusion hc
  | Except.error _, Except.ok _ => isFalse fun hc => Except.noConfusion hc

/-! ## Rational matrices

Numpy 2-D arrays are embedded as a structure holding the two dimensions and
an entry function; `get` guards reads with the bounds, returning 0 outside. -/

structure MatQ where
  rows : ℕ
  cols : ℕ
  entry : ℕ → ℕ → ℚ

def MatQ.get (M : MatQ) (i j : ℕ) : ℚ :=
  if i < M.rows ∧ j < M.cols then M.entry i j else 0

/-- Row-major list of the in-range entries of a matrix, as numpy flattens. -/
def rowMajor (M : MatQ) : List ℚ :=
  (List.range M.rows).flatMap fun i => (List.range M.cols).map fun j => M.get i j

/-- Greatest entry of a matrix (`H.max()`), 0 for an empty matrix. -/
def matMax (M : MatQ) : ℚ :=
  match rowMajor M with
  | [] => 0
  | h :: t => t.foldl max h

/-- Sum of all entries (`np.sum`). -/
def matSum (M : MatQ) : ℚ := (rowMajor M).sum

/-- Number of nonzero in-range entries (`np.count_nonzero` semantics). -/
def countNonzeroMat (M : MatQ) : ℕ :=
  ((rowMajor M).filter fun v => v != 0).length

/-! ## Python slice normalization

`data[a:b]` on an axis of length `n`: a negative bound counts from the end
(clamped to 0), a nonnegative bound is clamped to `n`. -/

def sliceLo (n : ℕ) (a : ℤ) : ℕ :=
  if a < 0 then ((n : ℤ) + a).toNat else min a.toNat n

/-- Membership of index `i` in the Python slice `a : b` of an axis of length `n`. -/
def memSlice (n : ℕ) (a b : ℤ) (i : ℕ) : Bool :=
  decide (sliceLo n a ≤ i) && decide (i < sliceLo n b)

/-! ## 1-D peak finder

Embedding of `find_peaks` (src/DUET.py) and the identical `Repet.FindPeaks`
(src/Repet.py).  `data` there is `np.mat(data)`, a 1-by-L matrix, so
`np.size(np.nonzero(data))` is the size of a tuple of TWO index arrays:
twice the number of nonzero entries.  The embedding reproduces that. -/

def threshMask (data : List ℚ) (min_thr : ℚ) : List ℚ :=
  data.map fun v => if min_thr ≤ v then v else 0

def countNonzero (l : List ℚ) : ℕ := (l.filter fun v => v != 0).length

/-- First index of the maximum of a list (`np.argmax` row-major semantics). -/
def listArgmax (l : List ℚ) : ℕ :=
  (List.range l.length).foldl (fun b i => if l.getD b 0 < l.getD i 0 then i else b) 0

/-- Zero the Python slice `a : b` of the vector (`data[0, a:b] = 0`). -/
def zeroSlice (data : List ℚ) (a b : ℤ) : List ℚ :=
  data.mapIdx fun i v => if memSlice data.length a b i then 0 else v

/-- Greedy pick loop of `find_peaks`: pick the argmax, zero out
`data[p-d-1 : p+d+1]`, stop when the budget is used or the data sums to 0. -/
def fpLoop (min_dist : ℤ) : ℕ → List ℚ → List ℕ
  | 0, _ => []
  | fuel + 1, d =>
    let p := listArgmax d
    let d2 := zeroSlice d ((p : ℤ) - min_dist - 1) ((p : ℤ) + min_dist + 1)
    p :: (if d2.sum = 0 then [] else fpLoop min_dist fuel d2)

/-- Embedding of `find_peaks(data, min_thr, min_dist, max_num)` from
src/DUET.py lines 291-330 (= `Repet.FindPeaks`).  The entry guard compares
`np.size(np.nonzero(np.mat(data)))`, i.e. TWICE the nonzero count, with
`max_num`; unfilled slots of the preallocated index array stay 0 and the
result is sorted ascending. -/
def find_peaks (data : List ℚ) (min_thr : ℚ) (min_dist : ℤ) (max_num : ℕ) :
    Except String (List ℕ) :=
  let d := threshMask data min_thr
  if 2 * countNonzero d < max_num then
    Except.error "InsufficientPeaks"
  else
    let picks := fpLoop min_dist max_num d
    Except.ok ((picks ++ List.replicate (max_num - picks.length) 0).insertionSort (· ≤ ·))

/-! ## 2-D peak finder (src/DUET.py `find_peaks2`, lines 247-288) -/

/-- Thresholding step of `find_peaks2`: line 275's `data * (data >= min_thr)`
runs on an `np.matrix`, for which `*` is the MATRIX PRODUCT of `data` with
the boolean indicator matrix — not the elementwise mask of the 1-D
`find_peaks`, which uses `np.multiply` — and it is only defined (raising
ValueError otherwise) when the matrix is square. -/
def threshProd (M : MatQ) (min_thr : ℚ) : MatQ where
  rows := M.rows
  cols := M.cols
  entry := fun i j =>
    ∑ k ∈ Finset.range M.cols, M.get i k * (if min_thr ≤ M.get k j then 1 else 0)

/-- Row-major first maximum of a matrix
(`np.unravel_index(data.argmax(), data.shape)`). -/
def argmax2 (M : MatQ) : ℕ × ℕ :=
  ((List.range M.rows).flatMap fun i => (List.range M.cols).map fun j => (i, j)).foldl
    (fun b q => if M.get b.1 b.2 < M.get q.1 q.2 then q else b) (0, 0)

/-- Zero the rectangle `data[r-Rmd-1 : r+Rmd+1, c-Cmd-1 : c+Cmd+1]`
with Python slice semantics on each axis. -/
def zeroRect (M : MatQ) (r c : ℕ) (Rmd Cmd : ℕ) : MatQ where
  rows := M.rows
  cols := M.cols
  entry := fun i j =>
    if memSlice M.rows ((r : ℤ) - Rmd - 1) ((r : ℤ) + Rmd + 1) i &&
        memSlice M.cols ((c : ℤ) - Cmd - 1) ((c : ℤ) + Cmd + 1) j then 0
    else M.entry i j

/-- Greedy pick loop of `find_peaks2`: argmax, zero its rectangle, stop when
the budget is used or the matrix sums to 0. -/
def fp2Loop (Rmd Cmd : ℕ) : ℕ → MatQ → List (ℕ × ℕ)
  | 0, _ => []
  | fuel + 1, d =>
    let p := argmax2 d
    let d2 := zeroRect d p.1 p.2 Rmd Cmd
    p :: (if matSum d2 = 0 then [] else fp2Loop Rmd Cmd fuel d2)

/-- Embedding of `find_peaks2(data, min_thr, min_dist, max_num)`.  The
matrix-product thresholding of line 275 raises ValueError on non-square
input; the guard then compares `np.size(np.nonzero(...))` — twice the
nonzero count of the PRODUCT matrix, as in the 1-D case — with `max_num`,
and the greedy loop (argmax, Python-slice rectangle zeroing, sum check)
runs on the product matrix.  Unfilled columns of the preallocated
2-by-max_num index array stay (0, 0); no sort. -/
def find_peaks2 (data : MatQ) (min_thr : ℚ) (Rmd Cmd : ℕ) (max_num : ℕ) :
    Except String (List (ℕ × ℕ)) :=
  if data.cols ≠ data.rows then Except.error "ValueError"
  else
    let d := threshProd data min_thr
    if 2 * countNonzeroMat d < max_num then
      Except.error "InsufficientPeaks"
    else
      let picks := fp2Loop Rmd Cmd max_num d
      Except.ok (picks ++ List.replicate (max_num - picks.length) (0, 0))

/-! ## 2-D smoothing kernel (src/DUET.py `twoDsmooth`, lines 196-244) -/

/-- Scalar-kernel averaging matrix `np.ones((k, k)) / k ** 2`. -/
def avgKernel (k : ℕ) : MatQ where
  rows := k
  cols := k
  entry := fun _ _ => 1 / (k : ℚ) ^ 2

/-- `signal.convolve2d(K, np.ones((2, 1))) / 2` applied when the row count is
even, making it odd. -/
def adjustRows (K : MatQ) : MatQ :=
  if K.rows % 2 = 0 then
    { rows := K.rows + 1
      cols := K.cols
      entry := fun i j => (K.get i j + if 1 ≤ i then K.get (i - 1) j else 0) / 2 }
  else K

/-- `signal.convolve2d(K, np.ones((1, 2))) / 2` applied when the column count
is even. -/
def adjustCols (K : MatQ) : MatQ :=
  if K.cols % 2 = 0 then
    { rows := K.rows
      cols := K.cols + 1
      entry := fun i j => (K.get i j + if 1 ≤ j then K.get i (j - 1) else 0) / 2 }
  else K

/-- Kernel reversal `Kmat[::-1, ::-1]`. -/
def MatQ.flip (K : MatQ) : MatQ where
  rows := K.rows
  cols := K.cols
  entry := fun i j => K.get (K.rows - 1 - i) (K.cols - 1 - j)

/-- `signal.convolve2d(A, B, mode='valid')`: true 2-D convolution, output
dimensions `A.dim - B.dim + 1`. -/
def convolve2dValid (A B : MatQ) : MatQ where
  rows := A.rows + 1 - B.rows
  cols := A.cols + 1 - B.cols
  entry := fun i j =>
    ∑ u ∈ Finset.range B.rows, ∑ v ∈ Finset.range B.cols,
      A.get (i + u) (j + v) * B.get (B.rows - 1 - u) (B.cols - 1 - v)

/-- The augmented (edge-padded) matrix of `twoDsmooth`.  The top-left,
top-right and bottom-right pad blocks replicate the corner entries, but the
source fills the bottom-left block from `Mat[-1, 1]` — entry
(rows-1, 1), the SECOND column of the last row — not `Mat[-1, 0]`. -/
def augMatrix (M : MatQ) (copyrow copycol : ℕ) : MatQ where
  rows := M.rows + 2 * copyrow
  cols := M.cols + 2 * copycol
  entry := fun i j =>
    if i < copyrow then
      if j < copycol then M.get 0 0
      else if j < copycol + M.cols then M.get 0 (j - copycol)
      else M.get 0 (M.cols - 1)
    else if i < copyrow + M.rows then
      if j < copycol then M.get (i - copyrow) 0
      else if j < copycol + M.cols then M.get (i - copyrow) (j - copycol)
      else M.get (i - copyrow) (M.cols - 1)
    else
      if j < copycol then M.get (M.rows - 1) 1
      else if j < copycol + M.cols then M.get (M.rows - 1) (j - copycol)
      else M.get (M.rows - 1) (M.cols - 1)

/-- Embedding of `twoDsmooth(Mat, Kernel)` on the scalar-kernel path.  The
Python code evaluates `Mat[-1, 1]` while padding, which raises IndexError
whenever the matrix has fewer than 2 columns (or no rows); that failure is
returned as an error. -/
def twoDsmooth (M : MatQ) (k : ℕ) : Except String MatQ :=
  let Kmat := adjustCols (adjustRows (avgKernel k))
  let copyrow := Kmat.rows / 2
  let copycol := Kmat.cols / 2
  if 1 ≤ M.rows ∧ 2 ≤ M.cols then
    Except.ok (convolve2dValid (augMatrix M copyrow copycol) Kmat.flip)
  else Except.error "IndexError"

/-! ## DUET weighted histogram step (src/DUET.py lines 119-131) -/

/-- Bin index of a value in a uniform histogram over `[lo, hi]` with `n`
bins; values outside the range fall in no bin and the right edge joins the
last bin, as `np.histogram2d` does. -/
def binIndex (lo hi : ℚ) (n : ℕ) (v : ℚ) : Option ℕ :=
  if v < lo ∨ hi < v then none
  else some (min (((v - lo) * n / (hi - lo)).floor.toNat) (n - 1))

/-- Weighted 2-D histogram `np.histogram2d(alpha_vec, delta_vec, ...,
weights=tfw_vec)` over samples given as (alpha, delta, weight) triples. -/
def histogram2d (samples : List (ℚ × ℚ × ℚ)) (alo ahi : ℚ) (na : ℕ)
    (dlo dhi : ℚ) (nd : ℕ) : MatQ where
  rows := na
  cols := nd
  entry := fun i j =>
    ((samples.filter fun s =>
        binIndex alo ahi na s.1 == some i && binIndex dlo dhi nd s.2.1 == some j).map
      fun s => s.2.2).sum

/-- Division of every entry by the maximum entry (`hist / hist.max()`);
division by a zero maximum yields the zero matrix (numpy would yield NaNs,
equally failing to have maximum 1). -/
def matDivMax (M : MatQ) : MatQ where
  rows := M.rows
  cols := M.cols
  entry := fun i j => M.entry i j / matMax M

/-- The histogram build-normalize-smooth-renormalize block of `duet`:
accumulate the weighted histogram, divide by its maximum, smooth with the
3-by-3 averaging kernel, divide by the new maximum.  Returns the pair of the
two normalized matrices. -/
def duetHistStep (samples : List (ℚ × ℚ × ℚ)) (alo ahi : ℚ) (na : ℕ)
    (dlo dhi : ℚ) (nd : ℕ) : Except String (MatQ × MatQ) :=
  let H := histogram2d samples alo ahi na dlo dhi nd
  let hist1 := matDivMax H
  (twoDsmooth hist1 3).map fun sm => (hist1, matDivMax sm)

/-! ## DUET channel access and maximum-likelihood masks -/

/-- Embedding of the channel extraction `x[0, :]`, `x[1, :]` opening `duet`
(src/DUET.py lines 86-87): a mixture with fewer than two rows fails (the
conceptual `InvalidChannelCount` of the specification, an IndexError in
Python) before any source estimate is produced. -/
def duetSplitChannels (x : List (List ℚ)) : Except String (List ℚ × List ℚ) :=
  match x[0]?, x[1]? with
  | some r0, some r1 => Except.ok (r0, r1)
  | _, _ => Except.error "InvalidChannelCount"

/-- The best-index fold of the DUET mask loop (src/DUET.py lines 171-177) at
one time-frequency bin: `bestsofar` starts at infinity (`⊤`), and source `i`
replaces the incumbent only when its score is strictly smaller, so ties keep
the lower index.  `score i` is the value of the line-174 score array of
source `i` at the bin. -/
def duetAssign (score : ℕ → ℚ) : ℕ → ℕ × WithTop ℚ
  | 0 => (0, ⊤)
  | n + 1 =>
    let prev := duetAssign score n
    if (score n : WithTop ℚ) < prev.2 then (n, (score n : WithTop ℚ)) else prev

/-- `bestind` at one bin after scoring all `N` sources. -/
def duetBestInd (score : ℕ → ℚ) (N : ℕ) : ℕ := (duetAssign score N).1

/-- The binary mask of source `i` on the full spectrogram, with the zero DC
row the reconstruction prepends (src/DUET.py line 184): row `k = 0` is never
assigned, row `k ≥ 1` holds `1` iff `bestind` at spectrogram row `k - 1`
equals `i`.  `score j k t` is the line-174 score of source `j` at
(DC-stripped) row `k`, frame `t`. -/
def duetMask (score : ℕ → ℕ → ℕ → ℚ) (N i k t : ℕ) : ℚ :=
  if k = 0 then 0
  else if duetBestInd (fun j => score j (k - 1) t) N = i then 1 else 0

/-! ## Audio-buffer arithmetic (src/AudioSignal.py 247-275, src/nussl/AudioSignal.py 418-452) -/

/-- Single-channel audio buffer: channel count, sample rate and samples. -/
structure ASig where
  nChannels : ℕ
  sampleRate : ℕ
  data : List ℚ

instance : DecidableEq ASig := fun a b =>
  decidable_of_iff
    (a.nChannels = b.nChannels ∧ a.sampleRate = b.sampleRate ∧ a.data = b.data)
    (by cases a; cases b; simp)

/-- Default sample rate `Constants.DEFAULT_SAMPLE_RATE`, which the
constructor applies to every buffer built from a bare array; the results of
`__add__`/`__sub__` are built exactly so. -/
def defaultSampleRate : ℕ := 44100

/-- `combined = np.copy(longer); combined[0:shorter.size] += shorter`. -/
def addPrefix (longer shorter : List ℚ) : List ℚ :=
  (List.range longer.length).map fun i => longer.getD i 0 + shorter.getD i 0

/-- `combined = np.copy(longer); combined[0:shorter.size] -= shorter`. -/
def subPrefix (longer shorter : List ℚ) : List ℚ :=
  (List.range longer.length).map fun i => longer.getD i 0 - shorter.getD i 0

/-- Legacy `AudioSignal.__add__` (src/AudioSignal.py lines 247-260) on
single-channel buffers: checks only the channel counts — there is no sample
rate check — then adds the shorter buffer into a copy of the longer and
wraps the result with the constructor's default sample rate. -/
def legacyAdd (a b : ASig) : Except String ASig :=
  if a.nChannels ≠ b.nChannels then Except.error "ChannelMismatch"
  else if b.data.length < a.data.length then
    Except.ok ⟨1, defaultSampleRate, addPrefix a.data b.data⟩
  else
    Except.ok ⟨1, defaultSampleRate, addPrefix b.data a.data⟩

/-- Legacy `AudioSignal.__sub__` (src/AudioSignal.py lines 262-275): when
`self` is not strictly larger the code copies OTHER and subtracts `self`
into it, returning `other - self` instead of `self - other`. -/
def legacySub (a b : ASig) : Except String ASig :=
  if a.nChannels ≠ b.nChannels then Except.error "ChannelMismatch"
  else if b.data.length < a.data.length then
    Except.ok ⟨1, defaultSampleRate, subPrefix a.data b.data⟩
  else
    Except.ok ⟨1, defaultSampleRate, subPrefix b.data a.data⟩

/-- `AudioSignal.__sub__` of src/nussl/AudioSignal.py lines 436-452: adds the
sample-rate check but keeps the same orientation slip.  The embedding covers
the equal-length path exactly; for unequal sizes the source's channel-major
(1, n) layout makes its row-slice arithmetic raise a broadcast error rather
than zero-extend, a path no theorem below exercises. -/
def nusslSub (a b : ASig) : Except String ASig :=
  if a.nChannels ≠ b.nChannels then Except.error "ChannelMismatch"
  else if a.sampleRate ≠ b.sampleRate then Except.error "RateMismatch"
  else if b.data.length < a.data.length then
    Except.ok ⟨1, defaultSampleRate, subPrefix a.data b.data⟩
  else
    Except.ok ⟨1, defaultSampleRate, subPrefix b.data a.data⟩

/-! ## STFT / iSTFT kernel

The repository's FFT utilities (`FftUtils.f_stft` / `f_istft`, imported by
src/AudioSignal.py, src/DUET.py, src/Repet.py and src/REPET_sim.py) are not
among the sources — only their callers are.  The definitions below are
modelled from specification section 4.A. -/

/-- Window types of section 4.A. -/
inductive WindowType where
  | Rectangular
  | Hamming
  | Hanning
  | Blackman
  deriving DecidableEq

/-- Modelled from the spec: window generation of section 4.A (the repository
file defining the windows is absent from src/).  Value at sample `n` of the
length-`L` window. -/
noncomputable def genWindow : WindowType → ℕ → ℕ → ℝ
  | WindowType.Rectangular, _, _ => 1
  | WindowType.Hamming, L, n => 0.54 - 0.46 * Real.cos (2 * Real.pi * n / ((L : ℝ) - 1))
  | WindowType.Hanning, L, n => 0.5 * (1 - Real.cos (2 * Real.pi * n / ((L : ℝ) - 1)))
  | WindowType.Blackman, L, n =>
      0.42 - 0.5 * Real.cos (2 * Real.pi * n / ((L : ℝ) - 1)) +
        0.08 * Real.cos (4 * Real.pi * n / ((L : ℝ) - 1))

/-- Bin `k` of the length-`N` discrete Fourier transform. -/
noncomputable def dftBin (N : ℕ) (v : ℕ → ℂ) (k : ℕ) : ℂ :=
  ∑ n ∈ Finset.range N, v n * Complex.exp (-(2 * Real.pi * Complex.I * k * n / N))

/-- Sample `n` of the length-`N` inverse discrete Fourier transform. -/
noncomputable def idftBin (N : ℕ) (V : ℕ → ℂ) (n : ℕ) : ℂ :=
  (∑ k ∈ Finset.range N, V k * Complex.exp (2 * Real.pi * Complex.I * k * n / N)) / N

/-- The zero-padded FFT length: the next power of two at least `max nfft L`. -/
def nextPow2Len (nfft L : ℕ) : ℕ := 2 ^ (Nat.clog 2 (max nfft L))

/-- Number of frame starts 0, H, 2H, ... with `start + L ≤ S + H`
(section 4.A). -/
def numFrames (S L H : ℕ) : ℕ := (S + H - L) / H + 1

/-- Modelled from the spec: frame `m` of the windowed signal — `L` samples
starting at `m*H` (zero past the end of the signal), multiplied by the
window, zero beyond `L` (the zero-padding up to the FFT length). -/
noncomputable def framedSignal (w : WindowType) (L H S : ℕ) (x : ℕ → ℝ) (m n : ℕ) : ℝ :=
  if n < L then (if m * H + n < S then x (m * H + n) else 0) * genWindow w L n else 0

/-- Modelled from the spec: forward STFT `FftUtils.f_stft` (absent from
src/) — bin `k ∈ [0, N'/2]` of frame `m`: the length-N' DFT of the windowed
zero-padded frame, `N' = nextPow2Len nfft L`. -/
noncomputable def f_stft (w : WindowType) (L H nfft S : ℕ) (x : ℕ → ℝ) (k m : ℕ) : ℂ :=
  dftBin (nextPow2Len nfft L) (fun n => ((framedSignal w L H S x m n : ℝ) : ℂ)) k

/-- Mirror of a one-sided spectrum to the full length-`N` spectrum:
conjugate symmetry above `N/2`. -/
noncomputable def mirrorSpectrum (N : ℕ) (X : ℕ → ℂ) (k : ℕ) : ℂ :=
  if k ≤ N / 2 then X k else (starRingEnd ℂ) (X (N - k))

/-- The COLA normalizer of section 4.A: the summed squared synthesis window
over all frames covering output sample `t`. -/
noncomputable def winSumSq (w : WindowType) (L H F t : ℕ) : ℝ :=
  ∑ m ∈ Finset.range F,
    if m * H ≤ t ∧ t - m * H < L then (genWindow w L (t - m * H)) ^ 2 else 0

/-- Overlap-add of the synthesis-windowed recovered frames at sample `t`:
each frame's one-sided spectrum is mirrored, inverse-DFT'd, and multiplied
by the synthesis window. -/
noncomputable def istft_overlap (w : WindowType) (L H N F : ℕ) (X : ℕ → ℕ → ℂ) (t : ℕ) : ℝ :=
  ∑ m ∈ Finset.range F,
    if m * H ≤ t ∧ t - m * H < L then
      genWindow w L (t - m * H) *
        (idftBin N (fun k => mirrorSpectrum N (fun k2 => X k2 m) k) (t - m * H)).re
    else 0

/-- Modelled from the spec: inverse STFT `FftUtils.f_istft` (absent from
src/) — mirror, inverse-DFT, synthesis window, overlap-add, and division by
the summed squared window at each output sample. -/
noncomputable def f_istft (w : WindowType) (L H N F : ℕ) (X : ℕ → ℕ → ℂ) (t : ℕ) : ℝ :=
  istft_overlap w L H N F X t / winSumSq w L H F t

/-- The round trip at sample `t`: `f_istft` applied to `f_stft`. -/
noncomputable def stft_roundtrip (w : WindowType) (L H nfft S : ℕ) (x : ℕ → ℝ) (t : ℕ) : ℝ :=
  f_istft w L H (nextPow2Len nfft L) (numFrames S L H) (f_stft w L H nfft S x) t

/-! ## Concrete instances used by the counterexample and witness theorems -/

/-- The 2-by-2 matrix [[1, 2], [3, 4]]. -/
def sampleMat22 : MatQ where
  rows := 2
  cols := 2
  entry := fun i j => if i = 0 then (if j = 0 then 1 else 2) else (if j = 0 then 3 else 4)

/-- A constant single-column matrix: [[5], [5]]. -/
def constMat21 : MatQ where
  rows := 2
  cols := 1
  entry := fun _ _ => 5

/-- A 3-by-3 matrix with entries 2/5 at (0, 0), 9/10 at (0, 1) and 3/5 at
(1, 0); its matrix product with its own 1/2-threshold indicator matrix has
maximum 9/10 at position (0, 0), whose own entry 2/5 is below 1/2. -/
def prodMat33 : MatQ where
  rows := 3
  cols := 3
  entry := fun i j =>
    if i = 0 ∧ j = 0 then 2 / 5
    else if i = 0 ∧ j = 1 then 9 / 10
    else if i = 1 ∧ j = 0 then 3 / 5
    else 0

/-! ## REPET-SIM similarity matrix

Embedding of `sim_mat(X)` (src/REPET_sim.py lines 117-137), identical to
`Repet.ComputeSimilarityMatrix` (src/Repet.py lines 195-217).  The Python
code sets `X = X.T` — a VIEW of the caller's array — and assigns each row of
that view in a loop, so it writes through to the caller's columns.  The
embedding passes the state explicitly: the input is the list of rows of
`X.T` (the columns of `X`) and the first component of the result is the
final state of that array. -/

/-- The constant `1e-16` added to division-prone denominators. -/
noncomputable def EPS : ℝ := 1 / 10 ^ 16

/-- `np.dot(Xi, Xi)`. -/
noncomputable def dotSelf (v : List ℝ) : ℝ := (List.zipWith (fun a b => a * b) v v).sum

/-- One loop body of `sim_mat`: `Xi / (rowNorm + 1e-16)` with
`rowNorm = sqrt(dot(Xi, Xi))`. -/
noncomputable def normalizeFrame (v : List ℝ) : List ℝ :=
  v.map fun a => a / (Real.sqrt (dotSelf v) + EPS)

/-- The in-place column-normalization loop of `sim_mat`, ascending over the
rows of the transposed view. -/
noncomputable def simMatLoop (M : List (List ℝ)) : List (List ℝ) :=
  (List.range M.length).foldl (fun A i => A.set i (normalizeFrame (A.getD i []))) M

/-- `sim_mat(X)`: returns the final state of the caller's (transposed) array
together with the cosine-similarity matrix `S = X_normalized X_normalized.T`. -/
noncomputable def sim_mat (Xt : List (List ℝ)) : List (List ℝ) × List (List ℝ) :=
  let A := simMatLoop Xt
  (A, A.map fun r => A.map fun c => (List.zipWith (fun a b => a * b) r c).sum)

end Nussl

namespace Nussl

/-! ## Theorems -/

/-- Claim C3. The 1-D peak finder is claimed to fail with
`InsufficientPeaks` exactly when fewer than `max_num` entries reach the
threshold.  The code instead compares `np.size(np.nonzero(np.mat(data)))` —
twice the candidate count, since `np.nonzero` of a matrix returns a pair of
index arrays — with `max_num`.  On data with a single suprathreshold entry
and `max_num = 2` it therefore succeeds, returning the duplicated index
[0, 0], where the claim requires a failure. -/
theorem C3_find_peaks_insufficient_guard_bug :
    (List.countP (fun v => decide ((1 : ℚ) / 2 ≤ v)) [1, 0, 0] = 1 ∧ 1 < 2) ∧
    find_peaks [1, 0, 0] (1 / 2) 5 2 = Except.ok [0, 0] := by
  with_unfolding_all decide

/-- Claim C6. The padding of `twoDsmooth` is claimed to replicate the
nearest edge or corner entry into every padded cell.  On [[1, 2], [3, 4]]
with the 3-by-3 kernel, the bottom-left padded cell (3, 0) of the augmented
matrix holds `Mat[-1, 1] = 4` instead of the nearest entry
`Mat[1, 0] = 3`, and the smoothed value at (1, 0) is 25/9 instead of the
24/9 that replicate padding would give. -/
theorem C6_twoDsmooth_pad_bug :
    (augMatrix sampleMat22 1 1).get 3 0 = 4 ∧
    sampleMat22.get 1 0 = 3 ∧
    (twoDsmooth sampleMat22 3).map (fun S => S.get 1 0) = Except.ok (25 / 9) ∧
    (25 : ℚ) / 9 ≠ 24 / 9 := by
  with_unfolding_all decide

/-- Claim C7. Smoothing a constant matrix is claimed to return the same
constant matrix for every constant input.  On the constant single-column
matrix [[5], [5]] with the 3-by-3 averaging kernel, the padding step
evaluates `Mat[-1, 1]`, a column index that does not exist, and the call
raises instead of returning the constant. -/
theorem C7_twoDsmooth_constant_crash :
    twoDsmooth constMat21 3 = Except.error "IndexError" := rfl

set_option maxRecDepth 4000 in
/-- Claim C8. Buffer subtraction is claimed to fail with `RateMismatch` on
differing sample rates and otherwise return the element-wise difference.
The legacy `__sub__` has no sample-rate check, and whenever `other` is at
least as large as `self` it returns `other - self`: on mono [1] minus mono
[1/2] with rates 8000 and 44100 it returns [-1/2] (with the constructor's
default rate) instead of failing; the nussl variant checks rates but keeps
the same sign flip on equal-rate inputs. -/
theorem C8_sub_orientation_and_rate_bug :
    legacySub ⟨1, 8000, [1]⟩ ⟨1, 44100, [1 / 2]⟩ =
      Except.ok ⟨1, 44100, [-(1 / 2)]⟩ ∧
    nusslSub ⟨1, 44100, [1]⟩ ⟨1, 44100, [1 / 2]⟩ =
      Except.ok ⟨1, 44100, [-(1 / 2)]⟩ := by
  with_unfolding_all decide

/-- Claim C9. A single-channel mixture makes the DUET estimator fail with
the conceptual `InvalidChannelCount` at the channel extraction, before any
output is produced. -/
theorem C9_duet_mono_rejected (x : List (List ℚ)) (h : x.length = 1) :
    duetSplitChannels x = Except.error "InvalidChannelCount" := by
  match x, h with
  | [r], _ => rfl

/-- Witness for C9 at the silent mono input `zeros(44100)`. -/
theorem C9_duet_mono_rejected_witness :
    duetSplitChannels [List.replicate 44100 (0 : ℚ)] =
      Except.error "InvalidChannelCount" :=
  C9_duet_mono_rejected [List.replicate 44100 (0 : ℚ)] rfl

/-! ### STFT / iSTFT round trip (C1) -/

theorem zeta_pow_self (N : ℕ) (hN : N ≠ 0) :
    Complex.exp (2 * Real.pi * Complex.I / N) ^ N = 1 := by
  rw [← Complex.exp_nat_mul]
  have hNC : (N : ℂ) ≠ 0 := Nat.cast_ne_zero.mpr hN
  have h : (N : ℂ) * (2 * Real.pi * Complex.I / N) = 2 * Real.pi * Complex.I := by
    rw [mul_div_assoc', mul_comm, mul_div_assoc, div_self hNC, mul_one]
  rw [h, Complex.exp_two_pi_mul_I]

theorem zeta_pow_eq_one_iff (N : ℕ) (hN : N ≠ 0) (d : ℕ) :
    Complex.exp (2 * Real.pi * Complex.I / N) ^ d = 1 ↔ N ∣ d :=
  (Complex.isPrimitiveRoot_exp N hN).pow_eq_one_iff_dvd d

theorem sum_zeta_pow (N : ℕ) (hN : 0 < N) (d : ℕ) :
    ∑ k ∈ Finset.range N, (Complex.exp (2 * Real.pi * Complex.I / N) ^ d) ^ k =
      if N ∣ d then (N : ℂ) else 0 := by
  set z := Complex.exp (2 * Real.pi * Complex.I / N) ^ d with hz
  by_cases hd : N ∣ d
  · have h1 : z = 1 := by
      obtain ⟨c, rfl⟩ := hd
      rw [hz, pow_mul, zeta_pow_self N hN.ne', one_pow]
    rw [h1, if_pos hd]
    simp
  · have h1 : z ≠ 1 := fun hc => hd ((zeta_pow_eq_one_iff N hN.ne' d).mp hc)
    have h2 : z ^ N = 1 := by
      rw [hz, ← pow_mul, mul_comm d N, pow_mul, zeta_pow_self N hN.ne', one_pow]
    rw [geom_sum_eq h1, h2, if_neg hd]
    simp

theorem exp_nat_exponent (N k j : ℕ) :
    Complex.exp (2 * Real.pi * Complex.I * k * j / N) =
      Complex.exp (2 * Real.pi * Complex.I / N) ^ (k * j) := by
  rw [← Complex.exp_nat_mul]
  congr 1
  push_cast
  ring

theorem exp_neg_nat_exponent (N k m : ℕ) (hm : m ≤ N) :
    Complex.exp (-(2 * Real.pi * Complex.I * k * m / N)) =
      Complex.exp (2 * Real.pi * Complex.I / N) ^ (k * (N - m)) := by
  rw [Complex.exp_neg, exp_nat_exponent N k m]
  have hmul : Complex.exp (2 * Real.pi * Complex.I / N) ^ (k * m) *
      Complex.exp (2 * Real.pi * Complex.I / N) ^ (k * (N - m)) = 1 := by
    rw [← pow_add]
    have harith : k * m + k * (N - m) = N * k := by
      rw [← Nat.mul_add, Nat.add_sub_cancel' hm]
      ring
    rw [harith, pow_mul]
    by_cases hN : N = 0
    · subst hN
      simp
    · rw [zeta_pow_self N hN, one_pow]
  field_simp
  rw [mul_comm] at hmul
  rw [hmul]

theorem idft_dft (N : ℕ) (hN : 0 < N) (v : ℕ → ℂ) (n : ℕ) (hn : n < N) :
    idftBin N (dftBin N v) n = v n := by
  unfold idftBin dftBin
  rw [div_eq_iff (show (N : ℂ) ≠ 0 from Nat.cast_ne_zero.mpr hN.ne')]
  have step1 : ∀ k : ℕ,
      (∑ m ∈ Finset.range N, v m * Complex.exp (-(2 * Real.pi * Complex.I * k * m / N))) *
          Complex.exp (2 * Real.pi * Complex.I * k * n / N) =
        ∑ m ∈ Finset.range N,
          v m * (Complex.exp (2 * Real.pi * Complex.I / N) ^ (n + (N - m))) ^ k := by
    intro k
    rw [Finset.sum_mul]
    apply Finset.sum_congr rfl
    intro m hm
    have hmN : m ≤ N := le_of_lt (Finset.mem_range.mp hm)
    rw [mul_assoc, exp_neg_nat_exponent N k m hmN, exp_nat_exponent N k n]
    congr 1
    rw [← pow_add, show k * (N - m) + k * n = (n + (N - m)) * k from by ring, pow_mul]
  calc ∑ k ∈ Finset.range N,
        (∑ m ∈ Finset.range N, v m * Complex.exp (-(2 * Real.pi * Complex.I * k * m / N))) *
          Complex.exp (2 * Real.pi * Complex.I * k * n / N)
      = ∑ k ∈ Finset.range N, ∑ m ∈ Finset.range N,
          v m * (Complex.exp (2 * Real.pi * Complex.I / N) ^ (n + (N - m))) ^ k := by
        exact Finset.sum_congr rfl fun k _ => step1 k
    _ = ∑ m ∈ Finset.range N, ∑ k ∈ Finset.range N,
          v m * (Complex.exp (2 * Real.pi * Complex.I / N) ^ (n + (N - m))) ^ k :=
        Finset.sum_comm
    _ = ∑ m ∈ Finset.range N,
          v m * (if N ∣ (n + (N - m)) then (N : ℂ) else 0) := by
        apply Finset.sum_congr rfl
        intro m _
        rw [← Finset.mul_sum, sum_zeta_pow N hN]
    _ = v n * N := by
        rw [Finset.sum_eq_single n]
        · rw [if_pos (show N ∣ (n + (N - n)) by
            rw [Nat.add_sub_cancel' hn.le])]
        · intro m hm hmn
          have hmN : m < N := Finset.mem_range.mp hm
          rw [if_neg, mul_zero]
          intro hdvd
          have h1 : 0 < n + (N - m) := by omega
          have h2 : n + (N - m) < 2 * N := by omega
          rcases hdvd with ⟨c, hc⟩
          have hc0 : c ≠ 0 := by
            rintro rfl
            omega
          have hc2 : c < 2 := by
            by_contra hcc
            push_neg at hcc
            have hmul : N * 2 ≤ N * c := Nat.mul_le_mul_left N hcc
            omega
          have hc1 : c = 1 := by omega
          subst hc1
          omega
        · intro hc
          exact absurd (Finset.mem_range.mpr hn) hc

theorem dft_real_conj (N : ℕ) (hN : 0 < N) (x : ℕ → ℝ) (j : ℕ) (hj : j ≤ N) :
    (starRingEnd ℂ) (dftBin N (fun n => (x n : ℂ)) j) =
      dftBin N (fun n => (x n : ℂ)) (N - j) := by
  unfold dftBin
  rw [map_sum]
  apply Finset.sum_congr rfl
  intro n hn
  rw [map_mul, Complex.conj_ofReal]
  congr 1
  rw [← Complex.exp_conj]
  have h1 : (starRingEnd ℂ) (-(2 * Real.pi * Complex.I * j * n / N)) =
      2 * Real.pi * Complex.I * j * n / N := by
    simp only [map_neg, map_div₀, map_mul, Complex.conj_I, Complex.conj_ofReal,
      map_natCast, map_ofNat]
    ring
  rw [h1]
  have hsplit : -(2 * Real.pi * Complex.I * ((N - j : ℕ) : ℂ) * n / N) =
      2 * Real.pi * Complex.I * j * n / N + ((-(n : ℤ) : ℤ) : ℂ) * (2 * Real.pi * Complex.I) := by
    have hNC : (N : ℂ) ≠ 0 := Nat.cast_ne_zero.mpr hN.ne'
    have hcast : ((N - j : ℕ) : ℂ) = (N : ℂ) - j := by
      push_cast [hj]
      ring
    rw [hcast]
    push_cast
    field_simp
    ring
  rw [hsplit, Complex.exp_add, Complex.exp_int_mul_two_pi_mul_I, mul_one]

theorem mirror_dft (N : ℕ) (hN : 0 < N) (x : ℕ → ℝ) (k : ℕ) (hk : k < N) :
    mirrorSpectrum N (dftBin N (fun n => (x n : ℂ))) k =
      dftBin N (fun n => (x n : ℂ)) k := by
  unfold mirrorSpectrum
  split_ifs with h
  · rfl
  · rw [dft_real_conj N hN x (N - k) (Nat.sub_le N k)]
    congr 1
    omega

theorem le_nextPow2Len (nfft L : ℕ) : L ≤ nextPow2Len nfft L :=
  le_trans (le_max_right nfft L) (Nat.le_pow_clog (by norm_num) _)

theorem nextPow2Len_pos (nfft L : ℕ) : 0 < nextPow2Len nfft L :=
  pow_pos (by norm_num) _

theorem istft_overlap_eq (w : WindowType) (L H nfft S t : ℕ) (x : ℕ → ℝ)
    (hLN : L ≤ nextPow2Len nfft L) (ht : t < S) :
    istft_overlap w L H (nextPow2Len nfft L) (numFrames S L H)
        (f_stft w L H nfft S x) t =
      x t * winSumSq w L H (numFrames S L H) t := by
  set N := nextPow2Len nfft L with hNdef
  have hN : 0 < N := nextPow2Len_pos nfft L
  unfold istft_overlap winSumSq
  rw [Finset.mul_sum]
  apply Finset.sum_congr rfl
  intro m _
  split_ifs with hc
  · have hrec : (idftBin N
        (fun k => mirrorSpectrum N (fun k2 => f_stft w L H nfft S x k2 m) k) (t - m * H)).re =
        framedSignal w L H S x m (t - m * H) := by
      have h1 : idftBin N
          (fun k => mirrorSpectrum N (fun k2 => f_stft w L H nfft S x k2 m) k) (t - m * H) =
          idftBin N (dftBin N (fun n => ((framedSignal w L H S x m n : ℝ) : ℂ))) (t - m * H) := by
        unfold idftBin
        congr 1
        apply Finset.sum_congr rfl
        intro k hk
        dsimp only
        have hfs : (fun k2 => f_stft w L H nfft S x k2 m) =
            dftBin N (fun n => ((framedSignal w L H S x m n : ℝ) : ℂ)) := by
          funext k2
          rfl
        rw [hfs]
        rw [mirror_dft N hN (framedSignal w L H S x m) k (Finset.mem_range.mp hk)]
      rw [h1, idft_dft N hN _ _ (lt_of_lt_of_le hc.2 hLN)]
      exact Complex.ofReal_re _
    rw [hrec]
    have hfr : framedSignal w L H S x m (t - m * H) =
        x t * genWindow w L (t - m * H) := by
      unfold framedSignal
      rw [if_pos hc.2, if_pos (show m * H + (t - m * H) < S by omega)]
      rw [show m * H + (t - m * H) = t from by omega]
    rw [hfr]
    ring
  · ring

theorem stft_roundtrip_exact (w : WindowType) (L H nfft S : ℕ) (x : ℕ → ℝ) (t : ℕ)
    (ht : t < S) (hws : winSumSq w L H (numFrames S L H) t ≠ 0) :
    stft_roundtrip w L H nfft S x t = x t := by
  unfold stft_roundtrip f_istft
  rw [istft_overlap_eq w L H nfft S t x (le_nextPow2Len nfft L) ht]
  rw [mul_div_assoc, div_self hws, mul_one]

theorem hamming_pos (L n : ℕ) : 0 < genWindow WindowType.Hamming L n := by
  unfold genWindow
  nlinarith [Real.cos_le_one (2 * Real.pi * n / ((L : ℝ) - 1)),
    Real.neg_one_le_cos (2 * Real.pi * n / ((L : ℝ) - 1))]

theorem frame_cover (S L H t : ℕ) (hH : 0 < H) (hHL : H ≤ L) (ht : t < S) :
    ∃ m, m < numFrames S L H ∧ m * H ≤ t ∧ t - m * H < L := by
  have hF : numFrames S L H = (S + H - L) / H + 1 := rfl
  have hdm := Nat.div_add_mod (S + H - L) H
  have hmod := Nat.mod_lt (S + H - L) hH
  have hdm2 := Nat.div_add_mod t H
  have hmod2 := Nat.mod_lt t hH
  have hcomm1 : t / H * H = H * (t / H) := Nat.mul_comm _ _
  have hcomm2 : (S + H - L) / H * H = H * ((S + H - L) / H) := Nat.mul_comm _ _
  by_cases hc : t / H ≤ (S + H - L) / H
  · refine ⟨t / H, by omega, by omega, by omega⟩
  · push_neg at hc
    refine ⟨(S + H - L) / H, by omega, ?_, ?_⟩
    · have h1 : ((S + H - L) / H + 1) * H ≤ (t / H) * H :=
        Nat.mul_le_mul_right H (by omega)
      have h2 : (t / H) * H ≤ t := Nat.div_mul_le_self t H
      have h0 : ((S + H - L) / H + 1) * H = (S + H - L) / H * H + H := by
        rw [Nat.add_mul, one_mul]
      omega
    · have h3 : (S + H - L) / H * H + (S + H - L) % H = S + H - L := by
        rw [hcomm2]
        exact hdm
      have h4 : (S + H - L) % H < H := hmod
      omega

theorem winSumSq_pos_hamming (L H S t : ℕ) (hH : 0 < H) (hHL : H ≤ L)
    (ht : t < S) : 0 < winSumSq WindowType.Hamming L H (numFrames S L H) t := by
  obtain ⟨m0, hm0F, hm0a, hm0b⟩ := frame_cover S L H t hH hHL ht
  unfold winSumSq
  apply Finset.sum_pos'
  · intro m _
    split_ifs
    · positivity
    · exact le_refl 0
  · refine ⟨m0, Finset.mem_range.mpr hm0F, ?_⟩
    rw [if_pos ⟨hm0a, hm0b⟩]
    exact pow_pos (hamming_pos L (t - m0 * H)) 2

/-- Claim C1. Modelled from the spec (the FFT kernels are absent from
src/): for every window length, hop and window with 0 < H ≤ L, every signal
and every sample t < S at which the summed squared synthesis window is
nonzero — which for the Hamming window is every sample, by
`winSumSq_pos_hamming`, so the hypothesis offers that case directly — the
inverse STFT of the STFT reproduces x t EXACTLY.  The reconstruction error
is 0, hence within the claimed 1e-6 RMS and 1e-5 relative-L2 tolerances; the
second conjunct records the per-sample bound explicitly. -/
theorem C1_stft_istft_roundtrip (w : WindowType) (L H nfft S : ℕ) (x : ℕ → ℝ) (t : ℕ)
    (hH : 0 < H) (hHL : H ≤ L) (ht : t < S)
    (hws : w = WindowType.Hamming ∨ winSumSq w L H (numFrames S L H) t ≠ 0) :
    stft_roundtrip w L H nfft S x t = x t ∧
    |stft_roundtrip w L H nfft S x t - x t| < 1 / 1000000 := by
  have hws2 : winSumSq w L H (numFrames S L H) t ≠ 0 := by
    rcases hws with rfl | h
    · exact ne_of_gt (winSumSq_pos_hamming L H S t hH hHL ht)
    · exact h
  have h := stft_roundtrip_exact w L H nfft S x t ht hws2
  refine ⟨h, ?_⟩
  rw [h, sub_self, abs_zero]
  norm_num

/-- Witness for C1: Hamming window, L = 2, H = 1, nfft = 2, on the signal
x n = n of length 4 at sample 1. -/
theorem C1_stft_istft_roundtrip_witness :
    stft_roundtrip WindowType.Hamming 2 1 2 4 (fun n => (n : ℝ)) 1 = 1 ∧
    |stft_roundtrip WindowType.Hamming 2 1 2 4 (fun n => (n : ℝ)) 1 - 1| < 1 / 1000000 := by
  have h := C1_stft_istft_roundtrip WindowType.Hamming 2 1 2 4 (fun n => (n : ℝ)) 1
    (by norm_num) (by norm_num) (by norm_num) (Or.inl rfl)
  simpa using h

/-! ### In-place similarity-matrix normalization (C10) -/

theorem getD_append_len {α : Type} (a b : List α) (d : α) (n : ℕ) (h : a.length = n) :
    (a ++ b).getD n d = b.getD 0 d := by
  subst h
  induction a with
  | nil => rfl
  | cons h t ih => simpa using ih

theorem set_append_len {α : Type} (a b : List α) (x : α) (n : ℕ) (h : a.length = n) :
    (a ++ b).set n x = a ++ b.set 0 x := by
  subst h
  induction a with
  | nil => rfl
  | cons h t ih => simp [ih]

theorem simMatLoop_take (M : List (List ℝ)) :
    ∀ k, k ≤ M.length →
      (List.range k).foldl (fun A i => A.set i (normalizeFrame (A.getD i []))) M =
        (M.take k).map normalizeFrame ++ M.drop k := by
  intro k
  induction k with
  | zero => intro _; simp
  | succ n ih =>
    intro hk
    have hn : n < M.length := hk
    have hdrop : M.drop n = M[n] :: M.drop (n + 1) := List.drop_eq_getElem_cons hn
    have hlen : ((M.take n).map normalizeFrame).length = n := by
      simp [List.length_take, Nat.min_eq_left (Nat.le_of_lt hn)]
    rw [List.range_succ, List.foldl_append, ih (Nat.le_of_lt hn)]
    have h1 : (((M.take n).map normalizeFrame) ++ M.drop n).getD n [] = M[n] := by
      rw [getD_append_len _ _ _ _ hlen, hdrop]
      rfl
    have h2 : (((M.take n).map normalizeFrame) ++ M.drop n).set n
        (normalizeFrame M[n]) =
        ((M.take n).map normalizeFrame) ++ (normalizeFrame M[n] :: M.drop (n + 1)) := by
      rw [set_append_len _ _ _ _ hlen, hdrop]
      rfl
    simp only [List.foldl_cons, List.foldl_nil, h1, h2]
    rw [List.take_succ, List.getElem?_eq_getElem hn]
    simp only [Option.toList_some, List.map_append, List.map_cons, List.map_nil,
      List.append_assoc, List.singleton_append, List.nil_append]

theorem simMatLoop_eq_map (M : List (List ℝ)) :
    simMatLoop M = M.map normalizeFrame := by
  have := simMatLoop_take M M.length (Nat.le_refl _)
  simpa [simMatLoop] using this

/-- Claim C10. `sim_mat` (and `Repet.ComputeSimilarityMatrix`) mutates its
argument in place: the column normalization writes through the transposed
view, so after the call every column of the caller's array has been divided
by its own L2 norm plus `1e-16`; on any input with a nonzero column (e.g.
the single column [1]) the argument is not left unchanged. -/
theorem C10_sim_mat_mutates_argument :
    (∀ Xt : List (List ℝ), (sim_mat Xt).1 = Xt.map normalizeFrame) ∧
    (sim_mat [[1]]).1 ≠ [[1]] := by
  constructor
  · intro Xt
    simpa [sim_mat] using simMatLoop_eq_map Xt
  · have hd : dotSelf [(1 : ℝ)] = 1 := by
      simp [dotSelf]
    have h1 : (sim_mat [[1]]).1 = [[1 / (1 + EPS)]] := by
      rw [show (sim_mat [[(1 : ℝ)]]).1 = simMatLoop [[1]] from rfl, simMatLoop_eq_map]
      simp [normalizeFrame, hd]
    have hE : (0 : ℝ) < EPS := by norm_num [EPS]
    rw [h1]
    intro hcontra
    have : (1 : ℝ) / (1 + EPS) = 1 := by
      simpa using hcontra
    have hne : (1 : ℝ) + EPS ≠ 0 := by linarith
    rw [div_eq_one_iff_eq hne] at this
    linarith

/-! ### DUET best-index fold and mask partition (C2) -/

theorem duetAssign_fst_lt_and_snd (s : ℕ → ℚ) :
    ∀ N, 0 < N →
      (duetAssign s N).1 < N ∧
        (duetAssign s N).2 = ((s (duetAssign s N).1 : ℚ) : WithTop ℚ) := by
  intro N
  induction N with
  | zero => intro h; exact absurd h (Nat.lt_irrefl 0)
  | succ n ih =>
    intro _
    by_cases hlt : ((s n : ℚ) : WithTop ℚ) < (duetAssign s n).2
    · constructor
      · simp [duetAssign, hlt]
      · simp [duetAssign, hlt]
    · rcases Nat.eq_zero_or_pos n with hn | hn
      · subst hn
        simp only [duetAssign] at hlt
        exact absurd (WithTop.coe_lt_top (s 0)) hlt
      · rcases ih hn with ⟨ih1, ih2⟩
        constructor
        · simpa [duetAssign, hlt] using Nat.lt_succ_of_lt ih1
        · simpa [duetAssign, hlt] using ih2

theorem duetAssign_snd_le (s : ℕ → ℚ) :
    ∀ N, ∀ i < N, (duetAssign s N).2 ≤ ((s i : ℚ) : WithTop ℚ) := by
  intro N
  induction N with
  | zero => intro i hi; exact absurd hi (Nat.not_lt_zero i)
  | succ n ih =>
    intro i hi
    by_cases hlt : ((s n : ℚ) : WithTop ℚ) < (duetAssign s n).2
    · rcases Nat.lt_succ_iff_lt_or_eq.mp hi with hi' | rfl
      · calc (duetAssign s (n + 1)).2 = ((s n : ℚ) : WithTop ℚ) := by
              simp [duetAssign, hlt]
          _ ≤ (duetAssign s n).2 := le_of_lt hlt
          _ ≤ ((s i : ℚ) : WithTop ℚ) := ih i hi'
      · simp [duetAssign, hlt]
    · rcases Nat.lt_succ_iff_lt_or_eq.mp hi with hi' | rfl
      · calc (duetAssign s (n + 1)).2 = (duetAssign s n).2 := by
              simp [duetAssign, hlt]
          _ ≤ ((s i : ℚ) : WithTop ℚ) := ih i hi'
      · calc (duetAssign s (i + 1)).2 = (duetAssign s i).2 := by
              simp [duetAssign, hlt]
          _ ≤ ((s i : ℚ) : WithTop ℚ) := not_lt.mp hlt

theorem duetAssign_tie_lowest (s : ℕ → ℚ) :
    ∀ N, ∀ i < N, ((s i : ℚ) : WithTop ℚ) = (duetAssign s N).2 →
      (duetAssign s N).1 ≤ i := by
  intro N
  induction N with
  | zero => intro i hi; exact absurd hi (Nat.not_lt_zero i)
  | succ n ih =>
    intro i hi hie
    by_cases hlt : ((s n : ℚ) : WithTop ℚ) < (duetAssign s n).2
    · have hfst : (duetAssign s (n + 1)).1 = n := by simp [duetAssign, hlt]
      have hsnd : (duetAssign s (n + 1)).2 = ((s n : ℚ) : WithTop ℚ) := by
        simp [duetAssign, hlt]
      rcases Nat.lt_succ_iff_lt_or_eq.mp hi with hi' | hi'
      · exfalso
        have h1 : (duetAssign s n).2 ≤ ((s i : ℚ) : WithTop ℚ) := duetAssign_snd_le s n i hi'
        rw [hie, hsnd] at h1
        exact absurd (lt_of_le_of_lt h1 hlt) (lt_irrefl _)
      · rw [hfst, hi']
    · have heq : duetAssign s (n + 1) = duetAssign s n := by
        simp [duetAssign, hlt]
      rw [heq] at hie ⊢
      rcases Nat.lt_succ_iff_lt_or_eq.mp hi with hi' | rfl
      · exact ih i hi' hie
      · rcases Nat.eq_zero_or_pos i with hn | hn
        · exfalso
          rw [hn] at hlt
          refine hlt ?_
          simp only [duetAssign, hn]
          exact WithTop.coe_lt_top (s 0)
        · exact Nat.le_of_lt (duetAssign_fst_lt_and_snd s i hn).1

/-- Claim C2. The ML binary masks of DUET's step 5 partition the
time-frequency plane: with at least one source, for every bin with `k > 0`
the masks sum to 1 and exactly the mask of `bestind` is 1, the DC row is
assigned to no source, and `bestind` is the LOWEST index attaining the
minimum score at the bin (ties choose the lower index).  `score j` stands
for the line-174 score array of source `j`. -/
theorem C2_duet_masks_partition (score : ℕ → ℕ → ℕ → ℚ) (N k t : ℕ)
    (hN : 0 < N) (hk : 0 < k) :
    (∑ i ∈ Finset.range N, duetMask score N i k t = 1) ∧
    (∀ i, duetMask score N i k t =
      if duetBestInd (fun j => score j (k - 1) t) N = i then 1 else 0) ∧
    (∀ i t2, duetMask score N i 0 t2 = 0) ∧
    (duetBestInd (fun j => score j (k - 1) t) N < N ∧
      (∀ i < N,
        score (duetBestInd (fun j => score j (k - 1) t) N) (k - 1) t ≤ score i (k - 1) t) ∧
      (∀ i < N,
        score i (k - 1) t = score (duetBestInd (fun j => score j (k - 1) t) N) (k - 1) t →
          duetBestInd (fun j => score j (k - 1) t) N ≤ i)) := by
  have hk0 : k ≠ 0 := Nat.pos_iff_ne_zero.mp hk
  set s : ℕ → ℚ := fun j => score j (k - 1) t with hs
  obtain ⟨hblt, hbsnd⟩ := duetAssign_fst_lt_and_snd s N hN
  refine ⟨?_, ?_, ?_, hblt, ?_, ?_⟩
  · rw [show (∑ i ∈ Finset.range N, duetMask score N i k t) =
        ∑ i ∈ Finset.range N,
          if duetBestInd s N = i then (1 : ℚ) else 0 from
      Finset.sum_congr rfl fun i _ => by simp [duetMask, hk0, hs]]
    rw [Finset.sum_ite_eq (Finset.range N) (duetBestInd s N) fun _ => (1 : ℚ)]
    simp [duetBestInd, hblt]
  · intro i
    simp [duetMask, hk0, hs]
  · intro i t2
    simp [duetMask]
  · intro i hi
    have h := duetAssign_snd_le s N i hi
    rw [hbsnd] at h
    exact_mod_cast h
  · intro i hi hie
    apply duetAssign_tie_lowest s N i hi
    rw [hbsnd]
    exact_mod_cast hie

/-- Witness for C2: two sources with equal scores at the bin; the masks sum
to 1 there. -/
theorem C2_duet_masks_partition_witness :
    ∑ i ∈ Finset.range 2, duetMask (fun _ _ _ => (0 : ℚ)) 2 i 1 0 = 1 :=
  (C2_duet_masks_partition (fun _ _ _ => (0 : ℚ)) 2 1 0 (by decide) (by decide)).1

/-! ### Matrix maxima and the histogram normalization step (C5) -/

theorem foldl_max_le (l : List ℚ) :
    ∀ (a x : ℚ), (x = a ∨ x ∈ l) → x ≤ l.foldl max a := by
  induction l with
  | nil =>
    intro a x h
    rcases h with rfl | h
    · exact le_refl x
    · cases h
  | cons b t ih =>
    intro a x h
    simp only [List.foldl_cons]
    rcases h with rfl | h
    · exact le_trans (le_max_left x b) (ih (max x b) _ (Or.inl rfl))
    · rcases List.mem_cons.mp h with rfl | h
      · exact le_trans (le_max_right a x) (ih (max a x) _ (Or.inl rfl))
      · exact ih (max a b) x (Or.inr h)

theorem foldl_max_mem (l : List ℚ) :
    ∀ a : ℚ, l.foldl max a = a ∨ l.foldl max a ∈ l := by
  induction l with
  | nil => intro a; exact Or.inl rfl
  | cons b t ih =>
    intro a
    simp only [List.foldl_cons]
    rcases ih (max a b) with h | h
    · rcases max_choice a b with hm | hm
      · exact Or.inl (by rw [h, hm])
      · refine Or.inr ?_
        rw [h, hm]
        exact List.mem_cons_self b t
    · exact Or.inr (List.mem_cons_of_mem b h)

theorem mem_rowMajor_of_lt {M : MatQ} {i j : ℕ} (hi : i < M.rows) (hj : j < M.cols) :
    M.get i j ∈ rowMajor M := by
  simp only [rowMajor, List.mem_flatMap, List.mem_map, List.mem_range]
  exact ⟨i, hi, j, hj, rfl⟩

theorem exists_of_mem_rowMajor {M : MatQ} {x : ℚ} (h : x ∈ rowMajor M) :
    ∃ i j, i < M.rows ∧ j < M.cols ∧ x = M.get i j := by
  simp only [rowMajor, List.mem_flatMap, List.mem_map, List.mem_range] at h
  obtain ⟨i, hi, j, hj, hx⟩ := h
  exact ⟨i, j, hi, hj, hx.symm⟩

theorem rowMajor_ne_nil {M : MatQ} (hr : 0 < M.rows) (hc : 0 < M.cols) :
    rowMajor M ≠ [] :=
  List.ne_nil_of_mem (mem_rowMajor_of_lt hr hc)

theorem le_matMax_of_mem {M : MatQ} {x : ℚ} (h : x ∈ rowMajor M) : x ≤ matMax M := by
  rcases hrm : rowMajor M with _ | ⟨hd, tl⟩
  · rw [hrm] at h
    cases h
  · rw [hrm] at h
    have : matMax M = tl.foldl max hd := by
      unfold matMax
      rw [hrm]
    rw [this]
    rcases List.mem_cons.mp h with rfl | h
    · exact foldl_max_le tl x x (Or.inl rfl)
    · exact foldl_max_le tl hd x (Or.inr h)

theorem matMax_mem {M : MatQ} (h : rowMajor M ≠ []) : matMax M ∈ rowMajor M := by
  rcases hrm : rowMajor M with _ | ⟨hd, tl⟩
  · exact absurd hrm h
  · have hm : matMax M = tl.foldl max hd := by
      unfold matMax
      rw [hrm]
    rw [hm]
    rcases foldl_max_mem tl hd with h1 | h1
    · rw [h1]
      exact List.mem_cons_self hd tl
    · exact List.mem_cons_of_mem hd h1

theorem get_matDivMax (M : MatQ) (i j : ℕ) :
    (matDivMax M).get i j = M.get i j / matMax M := by
  unfold MatQ.get matDivMax
  dsimp only
  split_ifs
  · rfl
  · rw [zero_div]

theorem matMax_matDivMax {M : MatQ} (hpos : 0 < matMax M) (hne : rowMajor M ≠ []) :
    matMax (matDivMax M) = 1 := by
  have hdims : (matDivMax M).rows = M.rows ∧ (matDivMax M).cols = M.cols := ⟨rfl, rfl⟩
  obtain ⟨x0, hx0⟩ := List.exists_mem_of_ne_nil _ hne
  obtain ⟨i0, j0, hi0, hj0, _⟩ := exists_of_mem_rowMajor hx0
  have hne2 : rowMajor (matDivMax M) ≠ [] :=
    rowMajor_ne_nil (by rw [hdims.1]; omega) (by rw [hdims.2]; omega)
  apply le_antisymm
  · obtain ⟨i, j, hi, hj, hx⟩ := exists_of_mem_rowMajor (matMax_mem hne2)
    rw [hx, get_matDivMax]
    rw [div_le_one hpos]
    exact le_matMax_of_mem (mem_rowMajor_of_lt (by rwa [hdims.1] at hi) (by rwa [hdims.2] at hj))
  · obtain ⟨i, j, hi, hj, hx⟩ := exists_of_mem_rowMajor (matMax_mem hne)
    have h1 : (matDivMax M).get i j = 1 := by
      rw [get_matDivMax, ← hx, div_self (ne_of_gt hpos)]
    calc (1 : ℚ) = (matDivMax M).get i j := h1.symm
      _ ≤ matMax (matDivMax M) :=
        le_matMax_of_mem (mem_rowMajor_of_lt (by rwa [hdims.1]) (by rwa [hdims.2]))

theorem MatQ.get_eq_entry {M : MatQ} {i j : ℕ} (hi : i < M.rows) (hj : j < M.cols) :
    M.get i j = M.entry i j := by
  unfold MatQ.get
  rw [if_pos ⟨hi, hj⟩]

theorem augMatrix_get_nonneg {M : MatQ} {cr cc : ℕ} (h : ∀ p q, 0 ≤ M.get p q)
    (i j : ℕ) : 0 ≤ (augMatrix M cr cc).get i j := by
  unfold MatQ.get
  split_ifs with hin
  · unfold augMatrix
    dsimp only
    split_ifs <;> exact h _ _
  · exact le_refl 0

theorem augMatrix_get_mid {M : MatQ} {cr cc i j : ℕ} (hi : i < M.rows) (hj : j < M.cols) :
    (augMatrix M cr cc).get (cr + i) (cc + j) = M.get i j := by
  unfold MatQ.get augMatrix
  dsimp only
  rw [if_pos ⟨by omega, by omega⟩]
  rw [if_neg (by omega : ¬ cr + i < cr), if_pos (by omega : cr + i < cr + M.rows)]
  rw [if_neg (by omega : ¬ cc + j < cc), if_pos (by omega : cc + j < cc + M.cols)]
  rw [Nat.add_sub_cancel_left, Nat.add_sub_cancel_left]
  rw [if_pos ⟨hi, hj⟩]
  exact MatQ.get_eq_entry hi hj

theorem adjust_avgKernel3 : adjustCols (adjustRows (avgKernel 3)) = avgKernel 3 := by
  unfold adjustRows adjustCols avgKernel
  norm_num

theorem flip_avgKernel3_get {u v : ℕ} (hu : u < 3) (hv : v < 3) :
    (avgKernel 3).flip.get u v = 1 / 9 := by
  unfold MatQ.flip MatQ.get avgKernel
  dsimp only
  rw [if_pos ⟨hu, hv⟩, if_pos ⟨by omega, by omega⟩]
  norm_num

theorem twoDsmooth3_eq (M : MatQ) (h1 : 1 ≤ M.rows) (h2 : 2 ≤ M.cols) :
    twoDsmooth M 3 =
      Except.ok (convolve2dValid (augMatrix M 1 1) (avgKernel 3).flip) := by
  unfold twoDsmooth
  rw [adjust_avgKernel3]
  rw [if_pos ⟨h1, h2⟩]
  rfl

theorem convolve3_get_ge_center (A : MatQ) (hA : ∀ p q, 0 ≤ A.get p q)
    {i j : ℕ} (hi : i < A.rows + 1 - 3) (hj : j < A.cols + 1 - 3) :
    A.get (i + 1) (j + 1) * (1 / 9) ≤
      (convolve2dValid A (avgKernel 3).flip).get i j := by
  have hget : (convolve2dValid A (avgKernel 3).flip).get i j =
      ∑ u ∈ Finset.range 3, ∑ v ∈ Finset.range 3,
        A.get (i + u) (j + v) * (avgKernel 3).flip.get (3 - 1 - u) (3 - 1 - v) := by
    rw [MatQ.get_eq_entry (M := convolve2dValid A (avgKernel 3).flip) hi hj]
    rfl
  have hflip : ∀ u v : ℕ, (avgKernel 3).flip.get (3 - 1 - u) (3 - 1 - v) = 1 / 9 :=
    fun u v => flip_avgKernel3_get (by omega) (by omega)
  have hsum : (convolve2dValid A (avgKernel 3).flip).get i j =
      ∑ u ∈ Finset.range 3, ∑ v ∈ Finset.range 3, A.get (i + u) (j + v) * (1 / 9) := by
    rw [hget]
    exact Finset.sum_congr rfl fun u _ => Finset.sum_congr rfl fun v _ => by rw [hflip]
  rw [hsum]
  have hnn : ∀ u ∈ Finset.range 3,
      (0 : ℚ) ≤ ∑ v ∈ Finset.range 3, A.get (i + u) (j + v) * (1 / 9) :=
    fun u _ => Finset.sum_nonneg fun v _ => by
      have := hA (i + u) (j + v)
      positivity
  calc A.get (i + 1) (j + 1) * (1 / 9)
      ≤ ∑ v ∈ Finset.range 3, A.get (i + 1) (j + v) * (1 / 9) := by
        apply Finset.single_le_sum (f := fun v => A.get (i + 1) (j + v) * (1 / 9))
        · intro v _
          have := hA (i + 1) (j + v)
          positivity
        · simp
    _ ≤ ∑ u ∈ Finset.range 3, ∑ v ∈ Finset.range 3, A.get (i + u) (j + v) * (1 / 9) := by
        apply Finset.single_le_sum
          (f := fun u => ∑ v ∈ Finset.range 3, A.get (i + u) (j + v) * (1 / 9))
        · exact hnn
        · simp


/-! ### 2-D peak finder (C4) -/

set_option maxRecDepth 40000 in
/-- Claim C4. Line 275 of src/DUET.py thresholds with
`data * (data >= min_thr)` on an `np.matrix`: a MATRIX PRODUCT with the
boolean indicator, not the elementwise mask that the claim — and the
function's own docstring, the 1-D sibling's `np.multiply`, and the
specification's "same greedy rule in two dimensions" — describes.  On the
square matrix with 2/5 at (0, 0), 9/10 at (0, 1) and 3/5 at (1, 0),
threshold 1/2, the product's maximum lands at (0, 0), so the finder
succeeds and returns [(0, 0)] — a position whose entry 2/5 is BELOW the
threshold, where the claimed greedy rule would pick (0, 1) with value
9/10 — and every non-square matrix raises ValueError instead of running
the claimed greedy rule at all. -/
theorem C4_find_peaks2_matrix_product_bug :
    find_peaks2 prodMat33 (1 / 2) 1 1 1 = Except.ok [(0, 0)] ∧
    prodMat33.get 0 0 = 2 / 5 ∧
    ¬ ((1 : ℚ) / 2 ≤ 2 / 5) ∧
    find_peaks2 ⟨2, 3, fun _ _ => 1⟩ (1 / 2) 1 1 1 = Except.error "ValueError" := by
  refine ⟨?_, ?_, ?_, ?_⟩
  · with_unfolding_all decide
  · with_unfolding_all decide
  · with_unfolding_all decide
  · rfl

/-- Claim C5, counterexample. The claim asserts max(H) > 0 for every input
reaching the histogram step.  A silent stereo mixture reaches it with the
single in-range sample (alpha, delta) = (0, 0) carrying weight 0 (the
time-frequency weights |X1||X2| vanish), and then max(H) = 0 and the
normalized histogram does not have maximum 1. -/
theorem C5_histogram_counterexample :
    matMax (histogram2d [((0 : ℚ), (0 : ℚ), (0 : ℚ))] (-3) 3 2 (-3) 3 2) = 0 ∧
    matMax (matDivMax (histogram2d [((0 : ℚ), (0 : ℚ), (0 : ℚ))] (-3) 3 2 (-3) 3 2)) ≠ 1 := by
  with_unfolding_all decide

/-- Claim C5, amended. When the in-range samples carry at least one positive
weight — so that the accumulated histogram has max(H) > 0, which an all-zero
weight vector violates — and the histogram has at least one alpha-bin and two
delta-bins, the build step normalizes to maximum exactly 1, the smoothed
histogram has positive maximum, and the renormalization yields maximum
exactly 1 again. -/
theorem C5_histogram_normalization_amended
    (samples : List (ℚ × ℚ × ℚ)) (alo ahi dlo dhi : ℚ) (na nd : ℕ)
    (hna : 1 ≤ na) (hnd : 2 ≤ nd)
    (hw : ∀ s ∈ samples, 0 ≤ s.2.2)
    (hpos : 0 < matMax (histogram2d samples alo ahi na dlo dhi nd)) :
    ∃ sm, duetHistStep samples alo ahi na dlo dhi nd =
        Except.ok (matDivMax (histogram2d samples alo ahi na dlo dhi nd), matDivMax sm) ∧
      matMax (matDivMax (histogram2d samples alo ahi na dlo dhi nd)) = 1 ∧
      0 < matMax sm ∧ matMax (matDivMax sm) = 1 := by
  set H := histogram2d samples alo ahi na dlo dhi nd with hH
  have hrows : H.rows = na := rfl
  have hcols : H.cols = nd := rfl
  have hHne : rowMajor H ≠ [] := rowMajor_ne_nil (by omega) (by omega)
  have hH1 : matMax (matDivMax H) = 1 := matMax_matDivMax hpos hHne
  have hHnn : ∀ p q, 0 ≤ H.get p q := by
    intro p q
    unfold MatQ.get
    split_ifs with hin
    · apply List.sum_nonneg
      intro x hx
      simp only [List.mem_map] at hx
      obtain ⟨smp, hsmp, hxeq⟩ := hx
      rw [← hxeq]
      exact hw smp (List.mem_of_mem_filter hsmp)
    · exact le_refl 0
  have h1nn : ∀ p q, 0 ≤ (matDivMax H).get p q := by
    intro p q
    rw [get_matDivMax]
    exact div_nonneg (hHnn p q) (le_of_lt hpos)
  have h1rows : (matDivMax H).rows = na := rfl
  have h1cols : (matDivMax H).cols = nd := rfl
  obtain ⟨i0, j0, hi0, hj0, hcell⟩ :=
    exists_of_mem_rowMajor (matMax_mem (M := matDivMax H)
      (rowMajor_ne_nil (by omega) (by omega)))
  have hcell1 : (matDivMax H).get i0 j0 = 1 := by rw [← hcell, hH1]
  set sm := convolve2dValid (augMatrix (matDivMax H) 1 1) (avgKernel 3).flip with hsm
  have hsmrows : sm.rows = na := by
    show (matDivMax H).rows + 2 * 1 + 1 - 3 = na
    omega
  have hsmcols : sm.cols = nd := by
    show (matDivMax H).cols + 2 * 1 + 1 - 3 = nd
    omega
  have haugnn : ∀ p q, 0 ≤ (augMatrix (matDivMax H) 1 1).get p q :=
    augMatrix_get_nonneg h1nn
  have hsmval : (1 : ℚ) / 9 ≤ sm.get i0 j0 := by
    have hc := convolve3_get_ge_center (augMatrix (matDivMax H) 1 1) haugnn
      (i := i0) (j := j0) (by show i0 < (matDivMax H).rows + 2 * 1 + 1 - 3; omega)
      (by show j0 < (matDivMax H).cols + 2 * 1 + 1 - 3; omega)
    have hmid : (augMatrix (matDivMax H) 1 1).get (i0 + 1) (j0 + 1) = 1 := by
      rw [show i0 + 1 = 1 + i0 from by omega, show j0 + 1 = 1 + j0 from by omega]
      rw [augMatrix_get_mid hi0 hj0, hcell1]
    rw [hmid] at hc
    calc (1 : ℚ) / 9 = 1 * (1 / 9) := by norm_num
      _ ≤ sm.get i0 j0 := hc
  have hsmpos : 0 < matMax sm := by
    calc (0 : ℚ) < 1 / 9 := by norm_num
      _ ≤ sm.get i0 j0 := hsmval
      _ ≤ matMax sm := le_matMax_of_mem (mem_rowMajor_of_lt (by omega) (by omega))
  have hsmne : rowMajor sm ≠ [] := rowMajor_ne_nil (by omega) (by omega)
  refine ⟨sm, ?_, hH1, hsmpos, matMax_matDivMax hsmpos hsmne⟩
  have hstep : duetHistStep samples alo ahi na dlo dhi nd =
      (twoDsmooth (matDivMax H) 3).map fun smm => (matDivMax H, matDivMax smm) := by
    rw [hH]
    rfl
  rw [hstep, twoDsmooth3_eq (matDivMax H) (by rw [h1rows]; omega) (by rw [h1cols]; omega)]
  rfl

/-- Witness for the amended C5 at a one-sample input of weight 1. -/
theorem C5_histogram_normalization_amended_witness :
    ∃ sm, duetHistStep [((0 : ℚ), (0 : ℚ), (1 : ℚ))] (-3) 3 2 (-3) 3 2 =
        Except.ok (matDivMax (histogram2d [((0 : ℚ), (0 : ℚ), (1 : ℚ))] (-3) 3 2 (-3) 3 2),
          matDivMax sm) ∧
      matMax (matDivMax (histogram2d [((0 : ℚ), (0 : ℚ), (1 : ℚ))] (-3) 3 2 (-3) 3 2)) = 1 ∧
      0 < matMax sm ∧ matMax (matDivMax sm) = 1 :=
  C5_histogram_normalization_amended [((0 : ℚ), (0 : ℚ), (1 : ℚ))] (-3) 3 (-3) 3 2 2
    (by omega) (by omega)
    (by intro s hs; rcases List.mem_singleton.mp hs with rfl; norm_num)
    (by with_unfolding_all decide)

end Nussl
